import Mathlib

/-! Verification of the row-selection and set-reconciliation core of the
keep94/mailmerge repository. The Go code in merge/merge.go and the main
program is embedded shallowly: Go maps become finite maps (Finmap), Go
slices become lists, the encoding-csv reader and writer are modelled over
character lists for the quote free fragment the repository exercises, and
fallible Go functions return an explicit result type with an error and a
panic outcome. -/

set_option maxHeartbeats 1000000

namespace Mailmerge

/-- Column constant Name from merge.go. -/
def nameCol : String := "name"

/-- Column constant Email from merge.go. -/
def emailCol : String := "email"

/-- Column constant Going from merge.go. -/
def goingCol : String := "going"

/-- Shallow embedding of strings.Split for a one character separator over
character lists: the chunks of the input between occurrences of the
separator. The result always has at least one chunk, and splitting the
empty list yields one empty chunk, mirroring strings.Split. -/
def splitChar (sep : Char) : List Char → List (List Char)
  | [] => [[]]
  | c :: rest =>
    if c = sep then [] :: splitChar sep rest
    else
      match splitChar sep rest with
      | [] => [[c]]
      | g :: gs => (c :: g) :: gs

/-- Chunks joined with the separator between them, the inverse direction of
splitChar. -/
def joinChar (sep : Char) : List (List Char) → List Char
  | [] => []
  | [x] => x
  | x :: y :: ys => x ++ sep :: joinChar sep (y :: ys)

/-- Shallow embedding of strings.HasPrefix over character lists: true when
the second list is an initial segment of the first. -/
def startsWithChars : List Char → List Char → Bool
  | _, [] => true
  | [], _ :: _ => false
  | c :: cs, p :: ps => c = p && startsWithChars cs ps

/-- Shallow embedding of strings.ToLower over character lists, one
character at a time. -/
def toLowerChars (s : List Char) : List Char := s.map Char.toLower

/-- Shallow embedding of strings.TrimSpace over character lists, with
Char.isWhitespace standing for unicode.IsSpace. -/
def trimChars (s : List Char) : List Char :=
  ((s.dropWhile Char.isWhitespace).reverse.dropWhile Char.isWhitespace).reverse

/-- strings.Split on a one character separator, at the String level. -/
def goSplit (sep : Char) (s : String) : List String :=
  (splitChar sep s.data).map (fun cs => String.mk cs)

/-- strings.TrimSpace at the String level. -/
def goTrim (s : String) : String := String.mk (trimChars s.data)

/-- CsvRow from merge.go: a Go map from column name to column value,
modelled as a finite map so that two rows are equal exactly when they hold
the same key value pairs. -/
abbrev CsvRow : Type := Finmap (fun _ : String => String)

/-- Go map indexing row[k]: the value at k, or the zero value "" when the
key is absent. -/
def CsvRow.get (c : CsvRow) (k : String) : String := (c.lookup k).getD ("")

/-- CsvRow.Name from merge.go. -/
def CsvRow.Name (c : CsvRow) : String := CsvRow.get c nameCol

/-- CsvRow.Email from merge.go. -/
def CsvRow.Email (c : CsvRow) : String := CsvRow.get c emailCol

/-- CsvRow.Going from merge.go: true when the lowercased going value does
not start with "n". -/
def CsvRow.Going (c : CsvRow) : Bool :=
  !(startsWithChars (toLowerChars (CsvRow.get c goingCol).data) ['n'])

/-- CsvRow.WithNotGoing from merge.go: a copy of the row with the going
column set to "n". -/
def CsvRow.WithNotGoing (c : CsvRow) : CsvRow := c.insert goingCol ("n")

/-- EmailSet from merge.go: a Go map used as a set of emails. -/
abbrev EmailSet : Type := Finset String

/-- NewEmailSet from merge.go: split on commas, trim each piece, collect
into a set. -/
def NewEmailSet (commaSeparatedEmails : String) : EmailSet :=
  ((goSplit ',' commaSeparatedEmails).map goTrim).toFinset

/-- EmailSet.Contains from merge.go. -/
def EmailSet.Contains (e : EmailSet) (email : String) : Bool :=
  decide (email ∈ e)

/-- EmailSet.Difference from merge.go: the emails of e that are not in
other. -/
def EmailSet.Difference (e other : EmailSet) : EmailSet := e \ other

/-- Insertion of a string into an ascending list, keeping it ascending. The
comparison goes through the character lists so that it evaluates by kernel
reduction; it agrees with the linear order on String. -/
def insertSorted (x : String) : List String → List String
  | [] => [x]
  | y :: ys => if x.data ≤ y.data then x :: y :: ys else y :: insertSorted x ys

/-- Insertion sort on strings, the embedding of sort.Strings; structural so
that it evaluates by kernel reduction. -/
def sortStrings (l : List String) : List String := l.foldr insertSorted []

theorem string_data_le_iff (x y : String) : x.data ≤ y.data ↔ x ≤ y :=
  String.le_iff_toList_le.symm

theorem insertSorted_perm (x : String) (l : List String) :
    List.Perm (insertSorted x l) (x :: l) := by
  induction l with
  | nil => simp [insertSorted]
  | cons y ys ih =>
    by_cases h : x.data ≤ y.data
    · simp [insertSorted, h]
    · simp only [insertSorted, if_neg h]
      exact ((ih.cons y).trans (List.Perm.swap x y ys))

theorem insertSorted_sorted (x : String) (l : List String)
    (h : l.Sorted (· ≤ ·)) : (insertSorted x l).Sorted (· ≤ ·) := by
  induction l with
  | nil => simp [insertSorted]
  | cons y ys ih =>
    rcases List.sorted_cons.mp h with ⟨hy, hys⟩
    by_cases hxy : x.data ≤ y.data
    · simp only [insertSorted, if_pos hxy]
      refine List.sorted_cons.mpr ⟨?_, h⟩
      intro b hb
      rcases List.mem_cons.mp hb with hb | hb
      · exact hb ▸ (string_data_le_iff x y).mp hxy
      · exact le_trans ((string_data_le_iff x y).mp hxy) (hy b hb)
    · simp only [insertSorted, if_neg hxy]
      refine List.sorted_cons.mpr ⟨?_, ih hys⟩
      intro b hb
      rcases List.mem_cons.mp ((insertSorted_perm x ys).mem_iff.mp hb) with hb | hb
      · exact hb ▸ le_of_not_le (fun hc => hxy ((string_data_le_iff x y).mpr hc))
      · exact hy b hb

theorem sortStrings_perm (l : List String) : List.Perm (sortStrings l) l := by
  induction l with
  | nil => simp [sortStrings]
  | cons x xs ih =>
    exact (insertSorted_perm x (sortStrings xs)).trans (ih.cons x)

theorem sortStrings_sorted (l : List String) :
    (sortStrings l).Sorted (· ≤ ·) := by
  induction l with
  | nil => simp [sortStrings]
  | cons x xs ih => exact insertSorted_sorted x (sortStrings xs) ih

theorem sortStrings_congr {l l' : List String} (h : List.Perm l l') :
    sortStrings l = sortStrings l' :=
  List.eq_of_perm_of_sorted
    ((sortStrings_perm l).trans (h.trans (sortStrings_perm l').symm))
    (sortStrings_sorted l) (sortStrings_sorted l')

/-- The ascending list of the elements of a multiset of strings. -/
def sortedMultiset (m : Multiset String) : List String :=
  Quot.liftOn m sortStrings (fun _ _ h => sortStrings_congr h)

/-- The ascending list of the elements of an EmailSet, the order in which
EmailSet.String from merge.go renders them. -/
def EmailSet.sortedList (e : EmailSet) : List String := sortedMultiset e.val

/-- EmailSet.String from merge.go: the emails sorted ascending and joined
with a comma and a space. -/
def EmailSet.render (e : EmailSet) : String :=
  String.intercalate (", ") (EmailSet.sortedList e)

/-- CsvFile from merge.go: the headers and the rows. -/
structure CsvFile where
  Headers : List String
  Rows : List CsvRow
deriving DecidableEq

/-- CsvFile.sel from merge.go: keep the rows satisfying f, headers
unchanged. -/
def CsvFile.sel (c : CsvFile) (f : CsvRow → Bool) : CsvFile :=
  ⟨c.Headers, c.Rows.filter f⟩

/-- CsvFile.SelectEmails from merge.go. -/
def CsvFile.SelectEmails (c : CsvFile) (emails : EmailSet) : CsvFile :=
  c.sel (fun row => EmailSet.Contains emails (CsvRow.Email row))

/-- CsvFile.SelectNoEmails from merge.go. -/
def CsvFile.SelectNoEmails (c : CsvFile) (emails : EmailSet) : CsvFile :=
  c.sel (fun row => !(EmailSet.Contains emails (CsvRow.Email row)))

/-- CsvFile.SelectGoing from merge.go. -/
def CsvFile.SelectGoing (c : CsvFile) : CsvFile :=
  c.sel (fun row => CsvRow.Going row)

/-- CsvFile.AsEmailSet from merge.go: the set of email values of the rows. -/
def CsvFile.AsEmailSet (c : CsvFile) : EmailSet :=
  (c.Rows.map CsvRow.Email).toFinset

/-- addGoingHeader from merge.go: append the going header only when it is
absent. -/
def addGoingHeader (headers : List String) : List String :=
  if goingCol ∈ headers then headers else headers ++ [goingCol]

/-- CsvFile.WithNotGoing from merge.go: every row gets going set to "n",
and the going header is appended when absent. -/
def CsvFile.WithNotGoing (c : CsvFile) : CsvFile :=
  ⟨addGoingHeader c.Headers, c.Rows.map CsvRow.WithNotGoing⟩

/-- checkEmails from the main program: error when some requested email is
not an email of the table. -/
def checkEmails (csvFile : CsvFile) (emails : EmailSet) : Except String Unit :=
  let unrecognizedEmails := EmailSet.Difference emails csvFile.AsEmailSet
  if 0 < unrecognizedEmails.card then
    Except.error ("Unrecognized emails: " ++ EmailSet.render unrecognizedEmails)
  else Except.ok ()

/-- fieldNeedsQuotes of the encoding-csv Writer with a comma separator;
the leading rune whitespace test uses Char.isWhitespace for
unicode.IsSpace. -/
def fieldNeedsQuotes (field : String) : Bool :=
  if field = "" then false
  else if field = "\\." then true
  else if (',' ∈ field.data) ∨ ('"' ∈ field.data) ∨
      ('\r' ∈ field.data) ∨ ('\n' ∈ field.data) then true
  else
    match field.data with
    | [] => false
    | c :: _ => c.isWhitespace

/-- Doubling of quote characters inside a quoted field. -/
def escapeQuotes : List Char → List Char
  | [] => []
  | c :: rest =>
    if c = '"' then '"' :: '"' :: escapeQuotes rest else c :: escapeQuotes rest

/-- One field as the encoding-csv Writer emits it with UseCRLF false:
verbatim, or quoted with inner quotes doubled when quoting is needed. -/
def writeField (field : String) : List Char :=
  if fieldNeedsQuotes field then '"' :: (escapeQuotes field.data ++ ['"'])
  else field.data

/-- The characters of one record line before its newline. -/
def lineChars (fields : List String) : List Char :=
  joinChar ',' (fields.map writeField)

/-- One record as the encoding-csv Writer emits it: fields joined by
commas, then a newline. -/
def writeRecordLine (fields : List String) : List Char :=
  lineChars fields ++ ['\n']

/-- CsvFile.write from merge.go: the header line, then one line per row
with the columns of the row rendered in header order. -/
def CsvFile.write (c : CsvFile) : List Char :=
  writeRecordLine c.Headers ++
    (c.Rows.map (fun row => writeRecordLine (c.Headers.map (CsvRow.get row)))).flatten

/-- Normalization of a CRLF line ending by the encoding-csv Reader. -/
def stripCR (l : List Char) : List Char :=
  if l.getLast? = some '\r' then l.dropLast else l

/-- The final empty chunk left by a trailing newline stands for the end of
the input, not for a line of its own. -/
def dropTrailingEmpty (pieces : List (List Char)) : List (List Char) :=
  if pieces.getLast? = some [] then pieces.dropLast else pieces

/-- Physical lines of the input with 1-based line numbers: split on the
newline character, drop the final empty chunk left by a trailing newline,
normalize a CRLF ending. -/
def rawLines (s : List Char) : List (Nat × List Char) :=
  (dropTrailingEmpty (splitChar '\n' s)).enum.map (fun p => (p.1 + 1, stripCR p.2))

/-- Records as the encoding-csv Reader yields them on quote free input:
blank lines are skipped and are not records, every other line splits on
commas; each record keeps the 1-based line number of its first field, as
later reported by FieldPos. Quoted fields are outside the modelled
fragment, which covers every input the verified properties and the
concrete instances below evaluate. -/
def csvRecords (s : List Char) : List (Nat × List String) :=
  (rawLines s).filterMap (fun p =>
    if p.2 = [] then none
    else some (p.1, (splitChar ',' p.2).map (fun cs => String.mk cs)))

/-- Outcome of running a Go function: a value, a returned error, or a
panic. -/
inductive GoResult (α : Type) where
  | ok (val : α)
  | err (msg : String)
  | panics
deriving DecidableEq

/-- True exactly on the panic outcome. -/
def GoResult.isPanic {α : Type} : GoResult α → Bool
  | GoResult.panics => true
  | _ => false

/-- Positional construction of the row map from createCsvRow in merge.go:
later duplicate headers overwrite earlier ones and fields beyond the
headers are ignored, since the loop ranges over the headers. -/
def createCsvRowCore (headers row : List String) : CsvRow :=
  (headers.zip row).foldl (fun m kv => m.insert kv.1 kv.2) ∅

/-- createCsvRow from merge.go; the indexing row[index] panics, modelled as
none, when the row has fewer fields than the headers. -/
def createCsvRow (headers row : List String) : Option CsvRow :=
  if headers.length ≤ row.length then some (createCsvRowCore headers row)
  else none

/-- The data row loop of readCsv in merge.go. The reader enforces, from the
header record on, a uniform field count and reports a wrong number of
fields through a parse error before the record is mapped; a mapped record
missing a name or an email fails with the line number from FieldPos. -/
def readRows (headers : List String) :
    List (Nat × List String) → GoResult (List CsvRow)
  | [] => GoResult.ok []
  | (lineNo, row) :: rest =>
    if row.length ≠ headers.length then
      GoResult.err ("record on line " ++ toString lineNo ++
        ": wrong number of fields")
    else
      match createCsvRow headers row with
      | none => GoResult.panics
      | some crow =>
        if CsvRow.Name crow = "" ∨ CsvRow.Email crow = "" then
          GoResult.err ("Line " ++ toString lineNo ++
            ": name and email columns must be present")
        else
          match readRows headers rest with
          | GoResult.ok rs => GoResult.ok (crow :: rs)
          | GoResult.err m => GoResult.err m
          | GoResult.panics => GoResult.panics

/-- readCsv from merge.go over the modelled reader: the first record is the
header, the remaining records become rows; an input with no record at all
fails with the EOF error of the underlying reader. -/
def readCsvGo (s : List Char) : GoResult CsvFile :=
  match csvRecords s with
  | [] => GoResult.err ("EOF")
  | (_, headers) :: rest =>
    match readRows headers rest with
    | GoResult.ok rows => GoResult.ok ⟨headers, rows⟩
    | GoResult.err m => GoResult.err m
    | GoResult.panics => GoResult.panics

/-! Helper lemmas about the sorted rendering order. -/

theorem mem_sortedMultiset (m : Multiset String) (x : String) :
    x ∈ sortedMultiset m ↔ x ∈ m :=
  Quot.inductionOn m fun l => Iff.trans (sortStrings_perm l).mem_iff Multiset.mem_coe

theorem sortedMultiset_sorted (m : Multiset String) :
    (sortedMultiset m).Sorted (· ≤ ·) :=
  Quot.inductionOn m fun l => sortStrings_sorted l

theorem sortedMultiset_nodup (m : Multiset String) (h : m.Nodup) :
    (sortedMultiset m).Nodup :=
  Quot.inductionOn m (fun l hl => (sortStrings_perm l).nodup_iff.mpr hl) h

theorem sortedList_sorted (e : EmailSet) :
    (EmailSet.sortedList e).Sorted (· ≤ ·) :=
  sortedMultiset_sorted e.val

theorem sortedList_nodup (e : EmailSet) : (EmailSet.sortedList e).Nodup :=
  sortedMultiset_nodup e.val e.nodup

theorem mem_sortedList (e : EmailSet) (x : String) :
    x ∈ EmailSet.sortedList e ↔ x ∈ e :=
  mem_sortedMultiset e.val x

theorem sortedList_toFinset (e : EmailSet) :
    (EmailSet.sortedList e).toFinset = e := by
  ext x
  rw [List.mem_toFinset, mem_sortedList]

/-- C1: SelectEmails and SelectNoEmails partition the rows of a table
exactly: a row is in SelectEmails exactly when its email is in the set and
in SelectNoEmails exactly when it is not, no row outside the table appears,
the two results together recover the row multiset of the table, both are
subsequences of the rows and so preserve their relative order, and both
carry the header unchanged. -/
theorem selectEmails_selectNoEmails_partition (T : CsvFile) (S : EmailSet) :
    (T.SelectEmails S).Headers = T.Headers ∧
    (T.SelectNoEmails S).Headers = T.Headers ∧
    (∀ r : CsvRow, r ∈ (T.SelectEmails S).Rows ↔
      r ∈ T.Rows ∧ CsvRow.Email r ∈ S) ∧
    (∀ r : CsvRow, r ∈ (T.SelectNoEmails S).Rows ↔
      r ∈ T.Rows ∧ CsvRow.Email r ∉ S) ∧
    ((T.SelectEmails S).Rows : Multiset CsvRow) +
      ((T.SelectNoEmails S).Rows : Multiset CsvRow) = (T.Rows : Multiset CsvRow) ∧
    (T.SelectEmails S).Rows.Sublist T.Rows ∧
    (T.SelectNoEmails S).Rows.Sublist T.Rows := by
  refine ⟨rfl, rfl, ?_, ?_, ?_, List.filter_sublist _, List.filter_sublist _⟩
  · intro r
    simp [CsvFile.SelectEmails, CsvFile.sel, EmailSet.Contains, List.mem_filter]
  · intro r
    simp [CsvFile.SelectNoEmails, CsvFile.sel, EmailSet.Contains, List.mem_filter]
  · exact Multiset.coe_eq_coe.mpr (List.filter_append_perm _ T.Rows)

/-- C2: checkEmails fails exactly when the difference between the requested
set and the email set of the table is non empty; the failure message
renders exactly that difference, sorted ascending and joined with a comma
and a space; on an empty difference it succeeds with no value. The last two
parts characterize the difference and the email set of the table. -/
theorem checkEmails_spec (T : CsvFile) (S : EmailSet) :
    (EmailSet.Difference S (CsvFile.AsEmailSet T) = ∅ ↔
      checkEmails T S = Except.ok ()) ∧
    (EmailSet.Difference S (CsvFile.AsEmailSet T) ≠ ∅ ↔
      checkEmails T S = Except.error ("Unrecognized emails: " ++
        String.intercalate (", ")
          (EmailSet.sortedList (EmailSet.Difference S (CsvFile.AsEmailSet T))))) ∧
    List.Sorted (· ≤ ·)
      (EmailSet.sortedList (EmailSet.Difference S (CsvFile.AsEmailSet T))) ∧
    (EmailSet.sortedList (EmailSet.Difference S (CsvFile.AsEmailSet T))).toFinset
      = EmailSet.Difference S (CsvFile.AsEmailSet T) ∧
    (∀ x, x ∈ EmailSet.Difference S (CsvFile.AsEmailSet T) ↔
      x ∈ S ∧ x ∉ CsvFile.AsEmailSet T) ∧
    (∀ x, x ∈ CsvFile.AsEmailSet T ↔ ∃ r ∈ T.Rows, CsvRow.Email r = x) := by
  have hok : EmailSet.Difference S (CsvFile.AsEmailSet T) = ∅ →
      checkEmails T S = Except.ok () := by
    intro h
    simp only [checkEmails, h, Finset.card_empty, Nat.lt_irrefl, if_false]
  have herr : EmailSet.Difference S (CsvFile.AsEmailSet T) ≠ ∅ →
      checkEmails T S = Except.error ("Unrecognized emails: " ++
        String.intercalate (", ")
          (EmailSet.sortedList (EmailSet.Difference S (CsvFile.AsEmailSet T)))) := by
    intro h
    have hp : 0 < (EmailSet.Difference S (CsvFile.AsEmailSet T)).card :=
      Finset.card_pos.mpr (Finset.nonempty_iff_ne_empty.mpr h)
    simp only [checkEmails, if_pos hp]
    rfl
  refine ⟨?_, ?_, sortedList_sorted _, sortedList_toFinset _, ?_, ?_⟩
  · refine ⟨hok, fun hc => ?_⟩
    by_contra h
    rw [herr h] at hc
    exact Except.noConfusion hc
  · refine ⟨herr, fun hc h => ?_⟩
    rw [hok h] at hc
    exact Except.noConfusion hc
  · intro x
    simp [EmailSet.Difference, Finset.mem_sdiff]
  · intro x
    simp [CsvFile.AsEmailSet, List.mem_toFinset, List.mem_map]

/-- C4: the going predicate declines exactly when the lowercased going
value starts with the character n; an absent going key and an empty going
value both mean attending; SelectGoing keeps exactly the attending rows
with the header unchanged; and when the going column is absent from the
header and every row stays within the header columns, every row qualifies
and the table comes back unchanged with no column synthesized. -/
theorem going_selectGoing_spec (T : CsvFile) :
    T.SelectGoing.Headers = T.Headers ∧
    T.SelectGoing.Rows = T.Rows.filter CsvRow.Going ∧
    (∀ r : CsvRow, CsvRow.Going r = false ↔
      startsWithChars (toLowerChars (CsvRow.get r goingCol).data) ['n'] = true) ∧
    (∀ r : CsvRow, r.lookup goingCol = none → CsvRow.Going r = true) ∧
    (∀ r : CsvRow, CsvRow.get r goingCol = "" → CsvRow.Going r = true) ∧
    ((goingCol ∉ T.Headers ∧
        ∀ r ∈ T.Rows, (r.keys : Finset String) ⊆ T.Headers.toFinset) →
      T.SelectGoing = T) := by
  refine ⟨rfl, rfl, ?_, ?_, ?_, ?_⟩
  · intro r
    simp [CsvRow.Going]
  · intro r h
    rw [CsvRow.Going, CsvRow.get, h]
    rfl
  · intro r h
    rw [CsvRow.Going, h]
    rfl
  · rintro ⟨hhdr, hrows⟩
    show (⟨T.Headers, T.Rows.filter _⟩ : CsvFile) = T
    rw [List.filter_eq_self.mpr]
    intro r hr
    have hk : goingCol ∉ r := by
      intro hm
      exact hhdr (List.mem_toFinset.mp
        (hrows r hr (Finmap.mem_keys.mpr hm)))
    rw [CsvRow.Going, CsvRow.get, Finmap.lookup_eq_none.mpr hk]
    rfl

/-- C5: WithNotGoing is idempotent, applying it once or any positive number
of times yields the same table, and the going header entry is appended at
most once and only when absent: with it present the header is untouched,
with it absent exactly one going entry is appended. -/
theorem withNotGoing_idempotent (T : CsvFile) :
    T.WithNotGoing.WithNotGoing = T.WithNotGoing ∧
    (∀ n : Nat, CsvFile.WithNotGoing^[n + 1] T = T.WithNotGoing) ∧
    (goingCol ∈ T.Headers → T.WithNotGoing.Headers = T.Headers) ∧
    (goingCol ∉ T.Headers → T.WithNotGoing.Headers = T.Headers ++ [goingCol]) ∧
    (goingCol ∉ T.Headers → T.WithNotGoing.Headers.count goingCol = 1) := by
  have hidem : T.WithNotGoing.WithNotGoing = T.WithNotGoing := by
    rw [CsvFile.WithNotGoing, CsvFile.WithNotGoing]
    refine congrArg₂ CsvFile.mk ?_ ?_
    · by_cases h : goingCol ∈ T.Headers <;> simp [addGoingHeader, h]
    · rw [List.map_map]
      refine List.map_congr_left ?_
      intro r _
      exact Finmap.insert_insert r
  refine ⟨hidem, ?_, ?_, ?_, ?_⟩
  · intro n
    induction n with
    | zero => rfl
    | succ n ih =>
      rw [Function.iterate_succ_apply']
      rw [ih]
      exact hidem
  · intro h
    simp [CsvFile.WithNotGoing, addGoingHeader, h]
  · intro h
    simp [CsvFile.WithNotGoing, addGoingHeader, h]
  · intro h
    simp only [CsvFile.WithNotGoing, addGoingHeader, if_neg h]
    rw [List.count_append, List.count_eq_zero.mpr h, List.count_singleton_self]

theorem going_withNotGoing (r : CsvRow) :
    CsvRow.Going (CsvRow.WithNotGoing r) = false := by
  rw [CsvRow.Going, CsvRow.WithNotGoing, CsvRow.get, Finmap.lookup_insert]
  rfl

/-- C6: after WithNotGoing every row declines, so SelectGoing keeps zero
rows. -/
theorem selectGoing_withNotGoing_empty (T : CsvFile) :
    (T.WithNotGoing.SelectGoing).Rows = [] := by
  show ((T.Rows.map CsvRow.WithNotGoing).filter _) = []
  rw [List.filter_eq_nil_iff]
  intro a ha
  rcases List.mem_map.mp ha with ⟨r, _, hr⟩
  rw [← hr, going_withNotGoing]
  simp

/-- C9: NewEmailSet splits its input on commas, trims whitespace around
each piece and collapses duplicates into a set; the empty input yields the
set holding exactly the empty string; and rendering lists the elements of a
set sorted ascending without repetition, joined with a comma and a space. -/
theorem newEmailSet_render_spec :
    (∀ s x, x ∈ NewEmailSet s ↔ ∃ p ∈ goSplit ',' s, goTrim p = x) ∧
    NewEmailSet ("") = {""} ∧
    (∀ e : EmailSet, List.Sorted (· ≤ ·) (EmailSet.sortedList e) ∧
      (EmailSet.sortedList e).toFinset = e ∧
      (EmailSet.sortedList e).Nodup ∧
      EmailSet.render e = String.intercalate (", ") (EmailSet.sortedList e)) := by
  refine ⟨?_, by decide, ?_⟩
  · intro s x
    rw [NewEmailSet, List.mem_toFinset, List.mem_map]
  · intro e
    exact ⟨sortedList_sorted e, sortedList_toFinset e, sortedList_nodup e, rfl⟩

/-! Helper lemmas about the reader loop. -/

theorem readCsvGo_eq_cons {s : List Char} {n : Nat} {headers : List String}
    {rest : List (Nat × List String)}
    (h : csvRecords s = (n, headers) :: rest) :
    readCsvGo s = (match readRows headers rest with
      | GoResult.ok rows => GoResult.ok ⟨headers, rows⟩
      | GoResult.err m => GoResult.err m
      | GoResult.panics => GoResult.panics) := by
  rw [readCsvGo, h]

theorem readRows_not_panic (headers : List String)
    (rows : List (Nat × List String)) :
    (readRows headers rows).isPanic = false := by
  induction rows with
  | nil => rfl
  | cons q rest ih =>
    rcases q with ⟨lineNo, row⟩
    by_cases h : row.length ≠ headers.length
    · simp [readRows, if_pos h, GoResult.isPanic]
    · have heq : row.length = headers.length := not_not.mp h
      by_cases hb : CsvRow.Name (createCsvRowCore headers row) = "" ∨
          CsvRow.Email (createCsvRowCore headers row) = ""
      · simp only [readRows, if_neg h, createCsvRow,
          if_pos (le_of_eq heq.symm), if_pos hb]
        rfl
      · simp only [readRows, if_neg h, createCsvRow,
          if_pos (le_of_eq heq.symm), if_neg hb]
        cases hrr : readRows headers rest with
        | ok rs => rfl
        | err m => rfl
        | panics =>
          rw [hrr] at ih
          simp [GoResult.isPanic] at ih

theorem readRows_err_of_ragged (headers : List String)
    (rows : List (Nat × List String))
    (hbad : ∃ p ∈ rows, (p.2).length ≠ headers.length) :
    ∃ m, readRows headers rows = GoResult.err m := by
  induction rows with
  | nil =>
    rcases hbad with ⟨p, hp, _⟩
    cases hp
  | cons q rest ih =>
    rcases hbad with ⟨p, hp, hlen⟩
    rcases q with ⟨lineNo, row⟩
    by_cases h : row.length ≠ headers.length
    · exact ⟨_, by rw [readRows, if_pos h]⟩
    · have hpr : p ∈ rest := by
        rcases List.mem_cons.mp hp with h1 | h1
        · rw [h1] at hlen
          exact absurd hlen h
        · exact h1
      have heq : row.length = headers.length := not_not.mp h
      rcases ih ⟨p, hpr, hlen⟩ with ⟨m, hm⟩
      by_cases hb : CsvRow.Name (createCsvRowCore headers row) = "" ∨
          CsvRow.Email (createCsvRowCore headers row) = ""
      · exact ⟨"Line " ++ toString lineNo ++
            ": name and email columns must be present",
          by simp only [readRows, if_neg h, createCsvRow,
            if_pos (le_of_eq heq.symm), if_pos hb]⟩
      · refine ⟨m, ?_⟩
        simp only [readRows, if_neg h, createCsvRow,
          if_pos (le_of_eq heq.symm), if_neg hb, hm]

theorem readRows_err_at (headers : List String) (pre : List (Nat × List String)) :
    ∀ (ln : Nat) (r : List String) (post : List (Nat × List String)),
    (∀ p ∈ pre, (p.2).length = headers.length ∧
      CsvRow.Name (createCsvRowCore headers p.2) ≠ "" ∧
      CsvRow.Email (createCsvRowCore headers p.2) ≠ "") →
    r.length = headers.length →
    (CsvRow.Name (createCsvRowCore headers r) = "" ∨
      CsvRow.Email (createCsvRowCore headers r) = "") →
    readRows headers (pre ++ (ln, r) :: post) =
      GoResult.err ("Line " ++ toString ln ++
        ": name and email columns must be present") := by
  induction pre with
  | nil =>
    intro ln r post _ hlen hbad
    have hnne : ¬(r.length ≠ headers.length) := fun hne => hne hlen
    simp only [List.nil_append, readRows, if_neg hnne,
      createCsvRow, if_pos (le_of_eq hlen.symm), if_pos hbad]
  | cons q pre ih =>
    intro ln r post hpre hlen hbad
    rcases q with ⟨qn, qrow⟩
    obtain ⟨hqlen, hqname, hqemail⟩ := hpre (qn, qrow) (List.mem_cons_self _ _)
    have hnne : ¬(qrow.length ≠ headers.length) := fun hne => hne hqlen
    simp only [List.cons_append, readRows, if_neg hnne,
      createCsvRow, if_pos (le_of_eq hqlen.symm),
      if_neg (not_or.mpr ⟨hqname, hqemail⟩), List.append_eq,
      ih ln r post (fun p hp => hpre p (List.mem_cons_of_mem _ hp)) hlen hbad]

/-- C10: loading never panics: the uniform field count check of the reader
rejects a record before the positional row construction runs, so
createCsvRow only ever sees a row exactly as wide as the headers, where its
positional indexing stays in bounds and yields a proper row map. -/
theorem readCsv_never_panics :
    (∀ s : List Char, (readCsvGo s).isPanic = false) ∧
    (∀ headers row : List String, headers.length = row.length →
      createCsvRow headers row = some (createCsvRowCore headers row)) := by
  constructor
  · intro s
    cases hrec : csvRecords s with
    | nil =>
      rw [readCsvGo, hrec]
      rfl
    | cons q rest =>
      rcases q with ⟨n, headers⟩
      rw [readCsvGo_eq_cons hrec]
      have hnp := readRows_not_panic headers rest
      cases hrr : readRows headers rest with
      | ok rs => rfl
      | err m => rfl
      | panics =>
        rw [hrr] at hnp
        simp [GoResult.isPanic] at hnp
  · intro headers row h
    rw [createCsvRow, if_pos (le_of_eq h)]

/-- C3 counterexample: a data row with fewer fields than the header, and
likewise one with more fields, makes the load fail with the field count
error of the reader instead of succeeding with absent or ignored columns. -/
theorem shortRow_load_fails :
    readCsvGo (("name,email,extra\nAlice,a@x.com\n").data) =
      GoResult.err ("record on line 2: wrong number of fields") ∧
    readCsvGo (("name,email\nAlice,a@x.com,extra\n").data) =
      GoResult.err ("record on line 2: wrong number of fields") := by
  constructor <;> decide

/-- C3 amended: a data row whose field count differs from the header
count, fewer or more, makes the whole load fail with an error; no table is
returned. -/
theorem raggedRow_load_errs (s : List Char) (hn : Nat) (hdr : List String)
    (rest : List (Nat × List String))
    (hrec : csvRecords s = (hn, hdr) :: rest)
    (hbad : ∃ p ∈ rest, (p.2).length ≠ hdr.length) :
    ∃ m, readCsvGo s = GoResult.err m := by
  rcases readRows_err_of_ragged hdr rest hbad with ⟨m, hm⟩
  exact ⟨m, by rw [readCsvGo_eq_cons hrec, hm]⟩

/-- Witness for the amended C3 at a concrete input: a two field data row
under a three field header makes the load fail. -/
theorem raggedRow_load_errs_witness :
    ∃ m, readCsvGo (("name,email,x\nBob,b@x.com\n").data) = GoResult.err m :=
  raggedRow_load_errs _ 1 ["name", "email", "x"] [(2, ["Bob", "b@x.com"])]
    (by decide) ⟨(2, ["Bob", "b@x.com"]), by decide, by decide⟩

/-- C7: a data row whose mapped name or email value is empty or absent
fails the whole load, no partial table, with an error naming the 1-based
input line number of the offending row and the violated requirement; an
input of just a header record loads to the table with that header and an
empty row list. -/
theorem readCsv_row_validation :
    (∀ (s : List Char) (hn ln : Nat) (hdr r : List String)
        (pre post : List (Nat × List String)),
      csvRecords s = (hn, hdr) :: (pre ++ (ln, r) :: post) →
      (∀ p ∈ pre, (p.2).length = hdr.length ∧
        CsvRow.Name (createCsvRowCore hdr p.2) ≠ "" ∧
        CsvRow.Email (createCsvRowCore hdr p.2) ≠ "") →
      r.length = hdr.length →
      (CsvRow.Name (createCsvRowCore hdr r) = "" ∨
        CsvRow.Email (createCsvRowCore hdr r) = "") →
      readCsvGo s = GoResult.err ("Line " ++ toString ln ++
        ": name and email columns must be present")) ∧
    (∀ (s : List Char) (hn : Nat) (hdr : List String),
      csvRecords s = [(hn, hdr)] → readCsvGo s = GoResult.ok ⟨hdr, []⟩) := by
  constructor
  · intro s hn ln hdr r pre post hrec hpre hlen hbad
    rw [readCsvGo_eq_cons hrec, readRows_err_at hdr pre ln r post hpre hlen hbad]
  · intro s hn hdr hrec
    rw [readCsvGo_eq_cons hrec]
    rfl

/-- Witness for C7 at concrete inputs: a data row with an empty email field
fails naming line 2, and a header-only input loads with zero rows. -/
theorem readCsv_row_validation_witness :
    readCsvGo (("name,email\nAlice,\n").data) =
      GoResult.err ("Line 2: name and email columns must be present") ∧
    readCsvGo (("name,email\n").data) = GoResult.ok ⟨["name", "email"], []⟩ :=
  ⟨readCsv_row_validation.1 _ 1 2 ["name", "email"] ["Alice", ""] [] []
      (by decide) (by decide) (by decide) (by decide),
    readCsv_row_validation.2 _ 1 ["name", "email"] (by decide)⟩

/-! Helper lemmas for the write and read round trip. -/

theorem not_mem_cons_parts {α : Type} {a c : α} {cs : List α}
    (h : a ∉ c :: cs) : a ≠ c ∧ a ∉ cs :=
  ⟨fun hh => h (by rw [hh]; exact List.mem_cons_self c cs),
    fun hm => h (List.mem_cons_of_mem _ hm)⟩

theorem splitChar_append_sep (sep : Char) (l rest : List Char) (h : sep ∉ l) :
    splitChar sep (l ++ sep :: rest) = l :: splitChar sep rest := by
  induction l with
  | nil => simp [splitChar]
  | cons c cs ih =>
    have hc : ¬(c = sep) := fun hh => (not_mem_cons_parts h).1 hh.symm
    simp only [List.cons_append, splitChar, if_neg hc, List.append_eq,
      ih (not_mem_cons_parts h).2]

theorem splitChar_no_sep (sep : Char) (l : List Char) (h : sep ∉ l) :
    splitChar sep l = [l] := by
  induction l with
  | nil => rfl
  | cons c cs ih =>
    have hc : ¬(c = sep) := fun hh => (not_mem_cons_parts h).1 hh.symm
    simp only [splitChar, if_neg hc, ih (not_mem_cons_parts h).2]

theorem splitChar_flatten_lines (sep : Char) (lines : List (List Char))
    (h : ∀ x ∈ lines, sep ∉ x) :
    splitChar sep ((lines.map (fun l => l ++ [sep])).flatten) =
      lines ++ [[]] := by
  induction lines with
  | nil => rfl
  | cons l ls ih =>
    rw [List.map_cons, List.flatten_cons, List.append_assoc,
      List.singleton_append,
      splitChar_append_sep sep l _ (h l (List.mem_cons_self _ _)),
      ih (fun x hx => h x (List.mem_cons_of_mem _ hx)), List.cons_append]

theorem splitChar_joinChar (sep : Char) :
    ∀ (l : List (List Char)), (∀ x ∈ l, sep ∉ x) → l ≠ [] →
    splitChar sep (joinChar sep l) = l := by
  intro l
  induction l with
  | nil => intro _ h; exact absurd rfl h
  | cons a as ih =>
    intro h _
    cases as with
    | nil => exact splitChar_no_sep sep a (h a (List.mem_cons_self _ _))
    | cons b bs =>
      rw [joinChar, splitChar_append_sep sep a _ (h a (List.mem_cons_self _ _)),
        ih (fun x hx => h x (List.mem_cons_of_mem _ hx)) (List.cons_ne_nil b bs)]

theorem mem_joinChar (sep : Char) :
    ∀ (l : List (List Char)) (x : Char), x ∈ joinChar sep l →
    x = sep ∨ ∃ p ∈ l, x ∈ p := by
  intro l
  induction l with
  | nil =>
    intro x hx
    cases hx
  | cons a as ih =>
    intro x hx
    cases as with
    | nil => exact Or.inr ⟨a, List.mem_cons_self _ _, hx⟩
    | cons b bs =>
      rw [joinChar] at hx
      rcases List.mem_append.mp hx with h1 | h1
      · exact Or.inr ⟨a, List.mem_cons_self _ _, h1⟩
      · rcases List.mem_cons.mp h1 with h2 | h2
        · exact Or.inl h2
        · rcases ih x h2 with h3 | ⟨p, hp, hxp⟩
          · exact Or.inl h3
          · exact Or.inr ⟨p, List.mem_cons_of_mem _ hp, hxp⟩

theorem joinChar_eq_nil_iff (sep : Char) (l : List (List Char)) :
    joinChar sep l = [] ↔ l = [] ∨ l = [[]] := by
  cases l with
  | nil => simp [joinChar]
  | cons a as =>
    cases as with
    | nil => simp [joinChar]
    | cons b bs => simp [joinChar]

theorem fieldNeedsQuotes_eq_false (f : String)
    (h : fieldNeedsQuotes f = false) :
    ',' ∉ f.data ∧ '"' ∉ f.data ∧ '\r' ∉ f.data ∧ '\n' ∉ f.data := by
  by_cases h0 : f = ""
  · subst h0
    exact ⟨by decide, by decide, by decide, by decide⟩
  · rw [fieldNeedsQuotes, if_neg h0] at h
    by_cases h1 : f = "\\."
    · rw [if_pos h1] at h
      cases h
    · rw [if_neg h1] at h
      by_cases h2 : (',' ∈ f.data) ∨ ('"' ∈ f.data) ∨
          ('\r' ∈ f.data) ∨ ('\n' ∈ f.data)
      · rw [if_pos h2] at h
        cases h
      · push_neg at h2
        exact ⟨h2.1, h2.2.1, h2.2.2.1, h2.2.2.2⟩

theorem writeField_eq_data (f : String) (h : fieldNeedsQuotes f = false) :
    writeField f = f.data := by
  rw [writeField, if_neg (by simp [h])]

theorem lineChars_eq (fields : List String)
    (hq : ∀ f ∈ fields, fieldNeedsQuotes f = false) :
    lineChars fields = joinChar ',' (fields.map String.data) := by
  rw [lineChars]
  congr 1
  exact List.map_congr_left (fun f hf => writeField_eq_data f (hq f hf))

theorem lineChars_no_specials (fields : List String)
    (hq : ∀ f ∈ fields, fieldNeedsQuotes f = false) :
    '\n' ∉ lineChars fields ∧ '\r' ∉ lineChars fields := by
  rw [lineChars_eq fields hq]
  constructor
  · intro hm
    rcases mem_joinChar ',' _ _ hm with h1 | ⟨p, hp, hxp⟩
    · exact absurd h1 (by decide)
    · rcases List.mem_map.mp hp with ⟨f, hf, rfl⟩
      exact (fieldNeedsQuotes_eq_false f (hq f hf)).2.2.2 hxp
  · intro hm
    rcases mem_joinChar ',' _ _ hm with h1 | ⟨p, hp, hxp⟩
    · exact absurd h1 (by decide)
    · rcases List.mem_map.mp hp with ⟨f, hf, rfl⟩
      exact (fieldNeedsQuotes_eq_false f (hq f hf)).2.2.1 hxp

theorem lineChars_ne_nil (fields : List String)
    (hq : ∀ f ∈ fields, fieldNeedsQuotes f = false)
    (hex : ∃ f ∈ fields, f ≠ "") : lineChars fields ≠ [] := by
  rw [lineChars_eq fields hq]
  intro h0
  rcases (joinChar_eq_nil_iff ',' _).mp h0 with h1 | h1
  · rcases hex with ⟨f, hf, _⟩
    rw [List.map_eq_nil_iff] at h1
    rw [h1] at hf
    cases hf
  · rcases hex with ⟨f, hf, hfne⟩
    cases fields with
    | nil => cases hf
    | cons g gs =>
      cases gs with
      | nil =>
        simp only [List.map_cons, List.map_nil, List.cons.injEq,
          and_true] at h1
        rcases List.mem_cons.mp hf with h2 | h2
        · subst h2
          rcases f with ⟨d⟩
          rw [show String.data ⟨d⟩ = d from rfl] at h1
          subst h1
          exact hfne rfl
        · cases h2
      | cons g2 gs2 => simp at h1

theorem stripCR_eq_self (l : List Char) (h : '\r' ∉ l) : stripCR l = l := by
  rw [stripCR, if_neg (fun hg => h (List.mem_of_getLast?_eq_some hg))]

theorem dropTrailingEmpty_concat (xs : List (List Char)) :
    dropTrailingEmpty (xs ++ [[]]) = xs := by
  rw [dropTrailingEmpty, if_pos (List.getLast?_concat xs),
    List.dropLast_concat]

theorem enumFrom_map_stripCR (lines : List (List Char))
    (hcr : ∀ x ∈ lines, '\r' ∉ x) :
    ∀ n, (lines.enumFrom n).map (fun p => (p.1 + 1, stripCR p.2)) =
      (lines.enumFrom n).map (fun p => (p.1 + 1, p.2)) := by
  induction lines with
  | nil => intro n; rfl
  | cons l ls ih =>
    intro n
    simp only [List.enumFrom_cons, List.map_cons]
    rw [stripCR_eq_self l (hcr l (List.mem_cons_self _ _)),
      ih (fun x hx => hcr x (List.mem_cons_of_mem _ hx)) (n + 1)]

theorem rawLines_of_lines (lines : List (List Char))
    (hnl : ∀ x ∈ lines, '\n' ∉ x) (hcr : ∀ x ∈ lines, '\r' ∉ x) :
    rawLines ((lines.map (fun l => l ++ ['\n'])).flatten) =
      (lines.enumFrom 0).map (fun p => (p.1 + 1, p.2)) := by
  rw [rawLines, splitChar_flatten_lines '\n' lines hnl,
    dropTrailingEmpty_concat]
  exact enumFrom_map_stripCR lines hcr 0

theorem csvRecords_of_fieldss (fss : List (List String))
    (h : ∀ fs ∈ fss, lineChars fs ≠ [] ∧
      (splitChar ',' (lineChars fs)).map (fun cs => String.mk cs) = fs) :
    ∀ n, (((fss.map lineChars).enumFrom n).map
        (fun p => (p.1 + 1, p.2))).filterMap
      (fun p => if p.2 = [] then none
        else some (p.1, (splitChar ',' p.2).map (fun cs => String.mk cs)))
      = (fss.enumFrom n).map (fun p => (p.1 + 1, p.2)) := by
  induction fss with
  | nil => intro n; rfl
  | cons fs fss ih =>
    intro n
    obtain ⟨hne, hsplit⟩ := h fs (List.mem_cons_self _ _)
    simp only [List.map_cons, List.enumFrom_cons, List.filterMap_cons,
      if_neg hne, hsplit,
      ih (fun x hx => h x (List.mem_cons_of_mem _ hx)) (n + 1)]

theorem lineChars_split (fields : List String)
    (hq : ∀ f ∈ fields, fieldNeedsQuotes f = false) (hne : fields ≠ []) :
    (splitChar ',' (lineChars fields)).map (fun cs => String.mk cs)
      = fields := by
  rw [lineChars_eq fields hq,
    splitChar_joinChar ','
      (fields.map String.data)
      (fun x hx => by
        rcases List.mem_map.mp hx with ⟨f, hf, rfl⟩
        exact (fieldNeedsQuotes_eq_false f (hq f hf)).1)
      (by simpa [List.map_eq_nil_iff] using hne),
    List.map_map]
  exact List.map_id fields

theorem foldl_insert_lookup_skip :
    ∀ (ps : List (String × String)) (m : CsvRow) (k : String),
    (∀ p ∈ ps, p.1 ≠ k) →
    ((ps.foldl (fun m kv => m.insert kv.1 kv.2) m).lookup k) = m.lookup k := by
  intro ps
  induction ps with
  | nil => intro m k _; rfl
  | cons q qs ih =>
    intro m k h
    rw [List.foldl_cons, ih _ k (fun p hp => h p (List.mem_cons_of_mem _ hp))]
    exact Finmap.lookup_insert_of_ne m
      (Ne.symm (h q (List.mem_cons_self _ _)))

theorem foldl_insert_lookup_mem (f : String → String) :
    ∀ (headers : List String) (m : CsvRow) (k : String), headers.Nodup →
    k ∈ headers →
    (((headers.map (fun h => (h, f h))).foldl
        (fun m kv => m.insert kv.1 kv.2) m).lookup k) = some (f k) := by
  intro headers
  induction headers with
  | nil =>
    intro m k _ hk
    cases hk
  | cons h hs ih =>
    intro m k hnd hk
    rw [List.map_cons, List.foldl_cons]
    rcases List.mem_cons.mp hk with h1 | h1
    · subst h1
      rw [foldl_insert_lookup_skip _ _ _ (fun p hp => by
        rcases List.mem_map.mp hp with ⟨x, hx, rfl⟩
        intro hxk
        exact (List.nodup_cons.mp hnd).1 (hxk ▸ hx))]
      exact Finmap.lookup_insert m
    · exact ih (m.insert h (f h)) k (List.nodup_cons.mp hnd).2 h1

theorem zip_self_map (f : String → String) :
    ∀ (headers : List String),
    headers.zip (headers.map f) = headers.map (fun h => (h, f h)) := by
  intro headers
  induction headers with
  | nil => rfl
  | cons h hs ih => simp [ih]

theorem createCsvRowCore_lookup_not_mem (headers vals : List String)
    (k : String) (hk : k ∉ headers) :
    (createCsvRowCore headers vals).lookup k = none := by
  rw [createCsvRowCore, foldl_insert_lookup_skip _ _ _ (fun p hp => by
    rcases p with ⟨a, b⟩
    intro h1
    exact hk (h1 ▸ (List.of_mem_zip hp).1))]
  exact Finmap.lookup_empty k

theorem createCsvRowCore_map_get (headers : List String)
    (hnodup : headers.Nodup) (r : CsvRow)
    (hk : r.keys = headers.toFinset) :
    createCsvRowCore headers (headers.map (CsvRow.get r)) = r := by
  apply Finmap.ext_lookup
  intro x
  by_cases hx : x ∈ headers
  · rw [createCsvRowCore, zip_self_map (CsvRow.get r) headers,
      foldl_insert_lookup_mem (CsvRow.get r) headers ∅ x hnodup hx]
    have hxk : x ∈ r := by
      rw [← Finmap.mem_keys, hk, List.mem_toFinset]
      exact hx
    rcases Finmap.mem_iff.mp hxk with ⟨v, hv⟩
    rw [hv, CsvRow.get, hv]
    rfl
  · rw [createCsvRowCore_lookup_not_mem headers _ x hx]
    have hxk : x ∉ r := by
      rw [← Finmap.mem_keys, hk, List.mem_toFinset]
      exact hx
    exact (Finmap.lookup_eq_none.mpr hxk).symm

theorem readRows_of_complete (headers : List String)
    (hnodup : headers.Nodup) :
    ∀ (rows : List CsvRow) (n : Nat),
    (∀ r ∈ rows, r.keys = headers.toFinset ∧
      CsvRow.Name r ≠ "" ∧ CsvRow.Email r ≠ "") →
    readRows headers
      (((rows.map (fun r => headers.map (CsvRow.get r))).enumFrom n).map
        (fun p => (p.1 + 1, p.2))) = GoResult.ok rows := by
  intro rows
  induction rows with
  | nil => intro n _; rfl
  | cons r rows ih =>
    intro n h
    obtain ⟨hk, hn, he⟩ := h r (List.mem_cons_self _ _)
    have hcore : createCsvRowCore headers (headers.map (CsvRow.get r)) = r :=
      createCsvRowCore_map_get headers hnodup r hk
    have hlen : ¬((headers.map (CsvRow.get r)).length ≠ headers.length) := by
      simp
    simp only [List.map_cons, List.enumFrom_cons, readRows, if_neg hlen,
      createCsvRow,
      if_pos (show headers.length ≤ (headers.map (CsvRow.get r)).length by simp),
      hcore, if_neg (not_or.mpr ⟨hn, he⟩),
      ih (n + 1) (fun x hx => h x (List.mem_cons_of_mem _ hx))]

/-- C8: writing a table whose cells need no escaping and loading the
written text back yields the table unchanged: same header, same rows in the
same order. The hypotheses say the header names are distinct, the name and
email columns exist, no header or cell needs quoting, every row has exactly
the header columns as its keys, and every row carries a non empty name and
email as the loader demands. -/
theorem write_read_roundtrip (c : CsvFile)
    (hnodup : c.Headers.Nodup)
    (hname : nameCol ∈ c.Headers) (hemail : emailCol ∈ c.Headers)
    (hqH : ∀ h ∈ c.Headers, fieldNeedsQuotes h = false)
    (hqC : ∀ r ∈ c.Rows, ∀ h ∈ c.Headers,
      fieldNeedsQuotes (CsvRow.get r h) = false)
    (hkeys : ∀ r ∈ c.Rows, r.keys = c.Headers.toFinset)
    (hvalid : ∀ r ∈ c.Rows, CsvRow.Name r ≠ "" ∧ CsvRow.Email r ≠ "") :
    readCsvGo (CsvFile.write c) = GoResult.ok c := by
  have hq_all : ∀ fs ∈ c.Headers ::
      c.Rows.map (fun r => c.Headers.map (CsvRow.get r)),
      ∀ f ∈ fs, fieldNeedsQuotes f = false := by
    intro fs hfs f hf
    rcases List.mem_cons.mp hfs with h1 | h1
    · exact hqH f (h1 ▸ hf)
    · rcases List.mem_map.mp h1 with ⟨r, hr, rfl⟩
      rcases List.mem_map.mp hf with ⟨hd, hhd, rfl⟩
      exact hqC r hr hd hhd
  have hex_all : ∀ fs ∈ c.Headers ::
      c.Rows.map (fun r => c.Headers.map (CsvRow.get r)),
      ∃ f ∈ fs, f ≠ "" := by
    intro fs hfs
    rcases List.mem_cons.mp hfs with h1 | h1
    · exact ⟨nameCol, h1 ▸ hname, by decide⟩
    · rcases List.mem_map.mp h1 with ⟨r, hr, rfl⟩
      exact ⟨CsvRow.get r emailCol, List.mem_map_of_mem _ hemail,
        (hvalid r hr).2⟩
  have hW : CsvFile.write c =
      (((c.Headers :: c.Rows.map (fun r => c.Headers.map (CsvRow.get r))).map
        lineChars).map (fun l => l ++ ['\n'])).flatten := by
    simp only [CsvFile.write, writeRecordLine, List.map_cons, List.map_map,
      List.flatten_cons, Function.comp_def]
  have hrec : csvRecords (CsvFile.write c) =
      (((c.Headers :: c.Rows.map (fun r => c.Headers.map (CsvRow.get r))).enumFrom
        0).map (fun p => (p.1 + 1, p.2))) := by
    rw [hW, csvRecords, rawLines_of_lines _
      (fun x hx => by
        rcases List.mem_map.mp hx with ⟨fs, hfs, rfl⟩
        exact (lineChars_no_specials fs (hq_all fs hfs)).1)
      (fun x hx => by
        rcases List.mem_map.mp hx with ⟨fs, hfs, rfl⟩
        exact (lineChars_no_specials fs (hq_all fs hfs)).2)]
    exact csvRecords_of_fieldss _
      (fun fs hfs => ⟨lineChars_ne_nil fs (hq_all fs hfs) (hex_all fs hfs),
        lineChars_split fs (hq_all fs hfs)
          (by
            intro h0
            rcases hex_all fs hfs with ⟨f, hf, _⟩
            rw [h0] at hf
            cases hf)⟩) 0
  have hrec2 : csvRecords (CsvFile.write c) = (1, c.Headers) ::
      (((c.Rows.map (fun r => c.Headers.map (CsvRow.get r))).enumFrom 1).map
        (fun p => (p.1 + 1, p.2))) := by
    rw [hrec]
    rfl
  rw [readCsvGo_eq_cons hrec2,
    readRows_of_complete c.Headers hnodup c.Rows 1
      (fun r hr => ⟨hkeys r hr, (hvalid r hr).1, (hvalid r hr).2⟩)]

/-- Witness for C8 at a concrete table: a one row name and email table
survives the write and read round trip unchanged. -/
theorem write_read_roundtrip_witness :
    readCsvGo (CsvFile.write ⟨["name", "email"],
      [((∅ : CsvRow).insert nameCol ("Alice")).insert emailCol ("a@x.com")]⟩) =
      GoResult.ok ⟨["name", "email"],
      [((∅ : CsvRow).insert nameCol ("Alice")).insert emailCol ("a@x.com")]⟩ :=
  write_read_roundtrip _ (by decide) (by decide) (by decide) (by decide)
    (by decide) (by decide) (by decide)

end Mailmerge
